import Mathlib

/-!
# Verification of the untyped lambda-calculus core (`src/untyped.rs`)

Shallow embedding of the de Bruijn index interpreter: the `Term` type, the
naming `Context` and printer, the `shift` / `subst` index arithmetic, and the
call-by-value small-step evaluator (`eval1` / `eval`).

Machine-integer modelling: the Rust code stores variable indices and context
lengths as `usize` and computes `(x as isize + d) as usize`.  Rust `as` casts
between same-width integers are bit-reinterpretations, so (with release-mode
wrapping addition) the composite expression equals the mathematical sum taken
modulo `2^64`.  We model `usize` values as `Nat`, shift amounts `d : isize` as
`Int`, and that composite cast-add-cast as `usizeAdd` below.
-/

/-- Word size of the target: `usize`/`isize` are 64-bit. -/
def USIZE : Int := 2 ^ 64

/-- Models the Rust expression `(x as isize + d) as usize`: the mathematical
sum reduced modulo `2^64`, reinterpreted as an unsigned value. -/
def usizeAdd (x : Nat) (d : Int) : Nat := (((x : Int) + d) % USIZE).toNat

/-- `enum Term { Var(usize, usize), Abs(String, Rc<Term>), App(Rc<Term>, Rc<Term>) }`.
`Rc` sharing is purely an allocation strategy; structurally the type is a tree. -/
inductive Term : Type
  | Var : Nat → Nat → Term
  | Abs : String → Term → Term
  | App : Term → Term → Term
deriving DecidableEq, Repr

namespace Term

/-- Inner `walk` of `Term::shift`: `d` is the shift amount, `c` the cutoff
(binder depth), incremented on entering an `Abs`.
Source: `Var(x, n) => Var(if x >= c {(x as isize + d) as usize} else {x}, (n as isize + d) as usize)`. -/
def shiftWalk (t : Term) (d : Int) (c : Nat) : Term :=
  match t with
  | Var x n => Var (if x ≥ c then usizeAdd x d else x) (usizeAdd n d)
  | Abs name t => Abs name (shiftWalk t d (c + 1))
  | App t1 t2 => App (shiftWalk t1 d c) (shiftWalk t2 d c)

/-- `Term::shift`: `walk(self, d, 0)`. -/
def shift (t : Term) (d : Int) : Term := shiftWalk t d 0

/-- Inner `walk` of `Term::subst`: replace `Var(x, _)` by `ts.shift(c)` when
`x == j + c`, keep the variable (with its original context length) otherwise. -/
def substWalk (t : Term) (j : Nat) (c : Nat) (ts : Term) : Term :=
  match t with
  | Var x n => if x = j + c then ts.shift (c : Int) else Var x n
  | Abs name t => Abs name (substWalk t j (c + 1) ts)
  | App t1 t2 => App (substWalk t1 j c ts) (substWalk t2 j c ts)

/-- `Term::subst`: `walk(self, j, 0, ts)`. -/
def subst (t : Term) (j : Nat) (ts : Term) : Term := substWalk t j 0 ts

/-- `Term::subst_top`: `self.subst(0, &s.shift(1)).shift(-1)`. -/
def subst_top (t : Term) (s : Term) : Term := (t.subst 0 (s.shift 1)).shift (-1)

/-- `Term::is_val`: only abstractions are values. -/
def is_val : Term → Bool
  | Abs _ _ => true
  | _ => false

end Term

/-- `struct Context(Vec<(String, Binding)>)` where `Binding = NameBind` is a
unit marker: structurally a list of names, outermost first. -/
abbrev Context : Type := List String

namespace Context

/-- `Context::len`. -/
def len (ctx : Context) : Nat := List.length ctx

/-- `Context::index_to_name`: `&self.0[self.len() - 1 - n].0`.  The Rust
indexing panics when `n ≥ len` (in debug mode `len - 1 - n` underflows; in
release it wraps to a value `≥ len` and the `Vec` index is out of bounds);
`none` models that panic. -/
def index_to_name (ctx : Context) (n : Nat) : Option String :=
  if n < ctx.len then List.get? ctx (ctx.len - 1 - n) else none

/-- `Context::pick_fresh_name`: append a prime until the name collides with no
entry, then push it.  The Rust recursion terminates because each retry makes
the candidate strictly longer while colliding candidates live in the finite
context; the measure is the longest name length in the context. -/
def pick_fresh_name (ctx : Context) (name : String) : Context × String :=
  if h : name ∈ ctx then pick_fresh_name ctx (name ++ "\x27")
  else (ctx ++ [name], name)
termination_by (List.map String.length ctx).foldr max 0 + 1 - name.length
decreasing_by
  have hle : name.length ≤ (List.map String.length ctx).foldr max 0 :=
    List.le_max_of_le (List.mem_map_of_mem String.length h) le_rfl
  have hlen : (name ++ "\x27").length = name.length + 1 := by
    simp [String.length_append]
    decide
  omega

end Context

namespace Term

/-- `Term::show`, rendering a term to a string under a naming context; the
panic on a `Var` whose recorded context length disagrees with `ctx.len()` is
modelled as `none`. -/
def show' : Term → Context → Option String
  | Var x n, ctx => if ctx.len = n then ctx.index_to_name x else none
  | Abs name t, ctx =>
    let p := ctx.pick_fresh_name name
    (show' t p.1).map (fun body => "(λ" ++ p.2 ++ ". " ++ body ++ ")")
  | App t1 t2, ctx =>
    match show' t1 ctx, show' t2 ctx with
    | some s1, some s2 => some ("(" ++ s1 ++ " " ++ s2 ++ ")")
    | _, _ => none

/-- `Term::eval1`, returning `none` for the Rust `Err` ("no rule applies").
Match arms in source order: beta when the head is an `Abs` and the argument a
value; otherwise if the head is a value (hence an `Abs`) reduce the argument;
otherwise reduce the head; non-`App` terms yield the error. -/
def eval1 : Term → Option Term
  | App t1 t2 =>
    match t1 with
    | Abs name t12 =>
      if t2.is_val then some (t12.subst_top t2)
      else
        match t2.eval1 with
        | some t2' => some (App (Abs name t12) t2')
        | none => none
    | t1 =>
      match t1.eval1 with
      | some t1' => some (App t1' t2)
      | none => none
  | _ => none

/-- `Term::eval` iterates `eval1` until it fails and returns the last term.
The Rust function is general recursion (it diverges on divergent terms), so it
is embedded with explicit fuel: `evalN fuel t = some r` iff the Rust `eval`
starting from `t` halts with `r` within `fuel` steps. -/
def evalN : Nat → Term → Option Term
  | 0, _ => none
  | fuel + 1, t =>
    match t.eval1 with
    | some t' => evalN fuel t'
    | none => some t

/-- `Evals t r` holds exactly when the Rust `t.eval()` terminates and returns `r`. -/
def Evals (t r : Term) : Prop := ∃ fuel, evalN fuel t = some r

end Term

/-- All variable indices of a term can be shifted by `d` without leaving the
`usize` range; hypothesis of the amended shift composition law. -/
def idxBounded (d : Int) : Term → Bool
  | Term.Var x _ => decide ((x : Int) + d < USIZE)
  | Term.Abs _ t => idxBounded d t
  | Term.App t1 t2 => idxBounded d t1 && idxBounded d t2

theorem usizeAdd_usizeAdd (n : Nat) (d1 d2 : Int) :
    usizeAdd (usizeAdd n d1) d2 = usizeAdd n (d1 + d2) := by
  unfold usizeAdd USIZE
  have hM : ((2 : Int) ^ 64) = 18446744073709551616 := by norm_num
  rw [hM]
  omega

theorem usizeAdd_eq_of_range (x : Nat) (d : Int) (h0 : 0 ≤ (x : Int) + d)
    (h1 : (x : Int) + d < USIZE) : (usizeAdd x d : Int) = (x : Int) + d := by
  unfold usizeAdd
  unfold USIZE at h1 ⊢
  have hM : ((2 : Int) ^ 64) = 18446744073709551616 := by norm_num
  rw [hM] at h1 ⊢
  omega

theorem shiftWalk_comp (t : Term) (d1 d2 : Int) (h1 : 0 ≤ d1)
    (hb : idxBounded d1 t = true) :
    ∀ c : Nat, Term.shiftWalk (Term.shiftWalk t d1 c) d2 c = Term.shiftWalk t (d1 + d2) c := by
  induction t with
  | Var x n =>
    intro c
    simp only [idxBounded, decide_eq_true_eq] at hb
    by_cases hc : x ≥ c
    · have hx0 : (0 : Int) ≤ (x : Int) + d1 := by
        have hx : (0 : Int) ≤ (x : Int) := Int.natCast_nonneg x
        omega
      have heq : (usizeAdd x d1 : Int) = (x : Int) + d1 := usizeAdd_eq_of_range x d1 hx0 hb
      have hge : usizeAdd x d1 ≥ c := by omega
      simp [Term.shiftWalk, hc, hge, usizeAdd_usizeAdd]
    · simp [Term.shiftWalk, hc, usizeAdd_usizeAdd]
  | Abs name t ih =>
    intro c
    simp only [idxBounded] at hb
    simp [Term.shiftWalk, ih hb]
  | App t1 t2 ih1 ih2 =>
    intro c
    simp only [idxBounded, Bool.and_eq_true] at hb
    simp [Term.shiftWalk, ih1 hb.1, ih2 hb.2]

/-- C1: for every term `body` and every term `s`, `subst_top body s` is exactly
shift `s` up by 1, substitute the result for index 0 in `body`, then shift the
whole result down by 1. -/
theorem subst_top_three_steps (body s : Term) :
    body.subst_top s = (body.subst 0 (s.shift 1)).shift (-1) := rfl

/-- C2 counterexample: the claim's unrestricted variable rule
"`Var(x, n)` with `x ≥ c` becomes `Var(x + d, n + d)`" fails at
`shift(Var(0, 0), -1)`: the code produces index `2^64 - 1`, whose integer
value is not `0 + (-1)`. -/
theorem shift_var_rule_counterexample :
    (Term.Var 0 0).shift (-1) = Term.Var (2 ^ 64 - 1) (2 ^ 64 - 1) ∧
    ¬ (((2 ^ 64 - 1 : Nat) : Int) = (0 : Int) + (-1)) := by
  exact ⟨by decide, by decide⟩

/-- C2 (amended): `shift t d` carries a cutoff `c` starting at 0 and
incremented per `Abs`; a `Var(x, n)` with `x ≥ c` becomes `Var(x+d, n+d)` and
one with `x < c` becomes `Var(x, n+d)`, **provided** the sums stay inside the
`usize` range `[0, 2^64)` (outside it the Rust casts wrap, claim C10); the
spec's concrete case 4 holds as stated. -/
theorem shift_cutoff_rule :
    (∀ (x n c : Nat) (d : Int), x ≥ c → 0 ≤ (x : Int) + d → (x : Int) + d < USIZE →
        0 ≤ (n : Int) + d → (n : Int) + d < USIZE →
        Term.shiftWalk (Term.Var x n) d c =
          Term.Var ((x : Int) + d).toNat ((n : Int) + d).toNat) ∧
    (∀ (x n c : Nat) (d : Int), x < c → 0 ≤ (n : Int) + d → (n : Int) + d < USIZE →
        Term.shiftWalk (Term.Var x n) d c = Term.Var x ((n : Int) + d).toNat) ∧
    (∀ (name : String) (t : Term) (c : Nat) (d : Int),
        Term.shiftWalk (Term.Abs name t) d c = Term.Abs name (Term.shiftWalk t d (c + 1))) ∧
    (∀ (t1 t2 : Term) (c : Nat) (d : Int),
        Term.shiftWalk (Term.App t1 t2) d c =
          Term.App (Term.shiftWalk t1 d c) (Term.shiftWalk t2 d c)) ∧
    (∀ (t : Term) (d : Int), t.shift d = Term.shiftWalk t d 0) ∧
    (Term.Abs "a" (Term.Abs "b" (Term.App (Term.Var 1 100)
        (Term.App (Term.Var 0 100) (Term.Var 2 100))))).shift 2 =
      Term.Abs "a" (Term.Abs "b" (Term.App (Term.Var 1 102)
        (Term.App (Term.Var 0 102) (Term.Var 4 102)))) := by
  refine ⟨?_, ?_, fun name t c d => rfl, fun t1 t2 c d => rfl, fun t d => rfl, by decide⟩
  · intro x n c d hc hx0 hx1 hn0 hn1
    have hx := usizeAdd_eq_of_range x d hx0 hx1
    have hn := usizeAdd_eq_of_range n d hn0 hn1
    have hx' : usizeAdd x d = ((x : Int) + d).toNat := by omega
    have hn' : usizeAdd n d = ((n : Int) + d).toNat := by omega
    simp [Term.shiftWalk, hc, hx', hn']
  · intro x n c d hc hn0 hn1
    have hn := usizeAdd_eq_of_range n d hn0 hn1
    have hn' : usizeAdd n d = ((n : Int) + d).toNat := by omega
    have hc' : ¬ (x ≥ c) := by omega
    simp [Term.shiftWalk, hc', hn']

/-- C2 witness: the free-variable rule applied at `Var(2, 100)` under cutoff 2
with shift amount 2 (the free variable of the spec's concrete case 4). -/
theorem shift_cutoff_rule_witness :
    Term.shiftWalk (Term.Var 2 100) 2 2 =
      Term.Var ((2 : Int) + 2).toNat (((100 : Nat) : Int) + 2).toNat :=
  shift_cutoff_rule.1 2 100 2 2 (by decide) (by decide) (by decide) (by decide) (by decide)

/-- C3: `subst t j s` replaces exactly the variables whose index equals
`j + c` (`c` the binder depth, incremented per `Abs`) by `s.shift c`, rebuilds
the other nodes recursively with `j` unchanged, and leaves non-matching
variables untouched. -/
theorem subst_rule :
    (∀ (x n j c : Nat) (s : Term),
        Term.substWalk (Term.Var x n) j c s =
          if x = j + c then s.shift (c : Int) else Term.Var x n) ∧
    (∀ (name : String) (t : Term) (j c : Nat) (s : Term),
        Term.substWalk (Term.Abs name t) j c s = Term.Abs name (Term.substWalk t j (c + 1) s)) ∧
    (∀ (t1 t2 : Term) (j c : Nat) (s : Term),
        Term.substWalk (Term.App t1 t2) j c s =
          Term.App (Term.substWalk t1 j c s) (Term.substWalk t2 j c s)) ∧
    (∀ (t : Term) (j : Nat) (s : Term), Term.subst t j s = Term.substWalk t j 0 s) ∧
    (∀ (x n j c : Nat) (s : Term), x ≠ j + c →
        Term.substWalk (Term.Var x n) j c s = Term.Var x n) := by
  refine ⟨fun x n j c s => rfl, fun name t j c s => rfl, fun t1 t2 j c s => rfl,
    fun t j s => rfl, ?_⟩
  intro x n j c s h
  simp [Term.substWalk, h]

/-- C3 witness: a non-matching variable (`x = 1`, `j + c = 0`) is untouched. -/
theorem subst_rule_witness :
    Term.substWalk (Term.Var 1 7) 0 0 (Term.Var 9 9) = Term.Var 1 7 :=
  subst_rule.2.2.2.2 1 7 0 0 (Term.Var 9 9) (by decide)

/-- C10: `shift` never signals an error on a negative result; a bare variable
is always rewritten to the mathematical sums reduced modulo `2^64`, and in
particular `shift(Var(0,0), -1) = Var(2^64 - 1, 2^64 - 1)`. -/
theorem shift_wraps_mod_2_64 :
    (∀ (x n : Nat) (d : Int), (Term.Var x n).shift d =
        Term.Var ((((x : Int) + d) % USIZE).toNat) ((((n : Int) + d) % USIZE).toNat)) ∧
    (Term.Var 0 0).shift (-1) = Term.Var (2 ^ 64 - 1) (2 ^ 64 - 1) := by
  refine ⟨fun x n d => ?_, by decide⟩
  simp [Term.shift, Term.shiftWalk, usizeAdd, Nat.zero_le]

/-- C6 counterexample: `shift(shift(t, d1), d2) = shift(t, d1 + d2)` fails for
`t = Abs("a", Var(1, 5))`, `d1 = -1`, `d2 = 1`, although every index and
context length stays non-negative throughout (the intermediate term is
`Abs("a", Var(0, 4))`): the first shift moves the free variable below the
cutoff, so the second shift no longer treats it as free. -/
theorem shift_comp_counterexample :
    (Term.Abs "a" (Term.Var 1 5)).shift (-1) = Term.Abs "a" (Term.Var 0 4) ∧
    ((Term.Abs "a" (Term.Var 1 5)).shift (-1)).shift 1 = Term.Abs "a" (Term.Var 0 5) ∧
    (Term.Abs "a" (Term.Var 1 5)).shift (-1 + 1) = Term.Abs "a" (Term.Var 1 5) ∧
    ((Term.Abs "a" (Term.Var 1 5)).shift (-1)).shift 1 ≠
      (Term.Abs "a" (Term.Var 1 5)).shift (-1 + 1) := by
  exact ⟨by decide, by decide, by decide, by decide⟩

/-- C6 (amended): the composition law `shift(shift(t, d1), d2) =
shift(t, d1 + d2)` holds whenever the first shift amount is non-negative
(`0 ≤ d1`) and no variable index of `t` overflows under it
(`x + d1 < 2^64`); the second amount `d2` is arbitrary.  For negative `d1`
the law can fail even with all indices non-negative. -/
theorem shift_shift_add (t : Term) (d1 d2 : Int) (h1 : 0 ≤ d1)
    (hb : idxBounded d1 t = true) :
    (t.shift d1).shift d2 = t.shift (d1 + d2) :=
  shiftWalk_comp t d1 d2 h1 hb 0

/-- C6 witness: the composition law at `t = Abs("a", Var(1, 5))`, `d1 = 1`,
`d2 = -1`. -/
theorem shift_shift_add_witness :
    ((Term.Abs "a" (Term.Var 1 5)).shift 1).shift (-1) =
      (Term.Abs "a" (Term.Var 1 5)).shift (1 + -1) :=
  shift_shift_add (Term.Abs "a" (Term.Var 1 5)) 1 (-1) (by decide) (by decide)

/-- C4: `eval1` succeeds only on applications, trying beta (head an
abstraction, argument a value), then right congruence (head a value), then
left congruence, in that order; it returns the error (`none`) on bare
variables, bare abstractions, and stuck applications. -/
theorem eval1_rules :
    (∀ (name : String) (body t2 : Term), t2.is_val = true →
        (Term.App (Term.Abs name body) t2).eval1 = some (body.subst_top t2)) ∧
    (∀ t1 t2 : Term, t1.is_val = true → t2.is_val = false →
        (Term.App t1 t2).eval1 = Option.map (fun t2' => Term.App t1 t2') t2.eval1) ∧
    (∀ t1 t2 : Term, t1.is_val = false →
        (Term.App t1 t2).eval1 = Option.map (fun t1' => Term.App t1' t2) t1.eval1) ∧
    (∀ x n : Nat, (Term.Var x n).eval1 = none) ∧
    (∀ (name : String) (t : Term), (Term.Abs name t).eval1 = none) ∧
    (∀ t1 t2 : Term, t1.is_val = false → t1.eval1 = none →
        (Term.App t1 t2).eval1 = none) := by
  have hcong1 : ∀ t1 t2 : Term, t1.is_val = false →
      (Term.App t1 t2).eval1 = Option.map (fun t1' => Term.App t1' t2) t1.eval1 := by
    intro t1 t2 h
    cases t1 with
    | Var x n => simp [Term.eval1]
    | Abs name t => simp [Term.is_val] at h
    | App s1 s2 =>
      cases ht : (Term.App s1 s2).eval1 <;> simp [Term.eval1, ht]
  refine ⟨?_, ?_, hcong1, fun x n => rfl, fun name t => rfl, ?_⟩
  · intro name body t2 h
    simp [Term.eval1, h]
  · intro t1 t2 h1 h2
    cases t1 with
    | Var x n => simp [Term.is_val] at h1
    | App s1 s2 => simp [Term.is_val] at h1
    | Abs name t12 =>
      rw [Term.eval1, h2]
      cases t2.eval1 <;> simp
  · intro t1 t2 h1 h2
    rw [hcong1 t1 t2 h1, h2]
    rfl

/-- C4 witness: the beta rule at the identity applied to the identity, the
error on a bare variable, and the error on the stuck application of a free
variable. -/
theorem eval1_rules_witness :
    (Term.App (Term.Abs "x" (Term.Var 0 2)) (Term.Abs "y" (Term.Var 0 1))).eval1 =
      some ((Term.Var 0 2).subst_top (Term.Abs "y" (Term.Var 0 1))) ∧
    (Term.Var 0 0).eval1 = none ∧
    (Term.App (Term.Var 0 0) (Term.Abs "y" (Term.Var 0 1))).eval1 = none :=
  ⟨eval1_rules.1 "x" (Term.Var 0 2) (Term.Abs "y" (Term.Var 0 1)) rfl,
    eval1_rules.2.2.2.1 0 0,
    eval1_rules.2.2.2.2.2 (Term.Var 0 0) (Term.Abs "y" (Term.Var 0 1)) rfl rfl⟩

/-- C5: `eval` never signals failure: whenever `eval1` returns the error, the
evaluation halts and returns the current term unchanged; in particular an
application headed by a free variable evaluates to itself. -/
theorem eval_total_on_stuck :
    (∀ t : Term, t.eval1 = none → Term.Evals t t) ∧
    (∀ (x n : Nat) (u : Term),
        (Term.App (Term.Var x n) u).eval1 = none ∧
        Term.Evals (Term.App (Term.Var x n) u) (Term.App (Term.Var x n) u)) := by
  have h1 : ∀ t : Term, t.eval1 = none → Term.Evals t t := by
    intro t h
    exact ⟨1, by simp [Term.evalN, h]⟩
  refine ⟨h1, fun x n u => ?_⟩
  have he : (Term.App (Term.Var x n) u).eval1 = none := by
    simp [Term.eval1]
  exact ⟨he, h1 _ he⟩

/-- C5 witness: a bare variable is a normal form and evaluates to itself. -/
theorem eval_total_on_stuck_witness : Term.Evals (Term.Var 0 0) (Term.Var 0 0) :=
  eval_total_on_stuck.1 (Term.Var 0 0) rfl

theorem evalN_last_step :
    ∀ (fuel : Nat) (t r : Term), Term.evalN fuel t = some r → r.eval1 = none := by
  intro fuel
  induction fuel with
  | zero => intro t r h; simp [Term.evalN] at h
  | succ m ih =>
    intro t r h
    rw [Term.evalN] at h
    cases ht : t.eval1 with
    | some t' =>
      rw [ht] at h
      exact ih t' r h
    | none =>
      rw [ht] at h
      cases h
      exact ht

/-- C7: `eval` is idempotent on its own output: if `eval` terminates on `t`
with result `r`, then `eval r` terminates with `r` again. -/
theorem eval_idempotent (t r : Term) (h : Term.Evals t r) : Term.Evals r r := by
  obtain ⟨fuel, hf⟩ := h
  exact ⟨1, by simp [Term.evalN, evalN_last_step fuel t r hf]⟩

/-- C7 witness: the identity applied to the identity evaluates to the
identity, which re-evaluates to itself. -/
theorem eval_idempotent_witness :
    Term.Evals (Term.Abs "y" (Term.Var 0 1)) (Term.Abs "y" (Term.Var 0 1)) :=
  eval_idempotent (Term.App (Term.Abs "x" (Term.Var 0 2)) (Term.Abs "y" (Term.Var 0 1)))
    (Term.Abs "y" (Term.Var 0 1)) ⟨2, by decide⟩

/-- C8: `show` on `Var(x, n)` aborts (modelled as `none`) when `n` differs
from the context length, and when `n` equals the context length (and the index
is in range) it returns the name at position `len - 1 - x` of the context. -/
theorem show_var_consistency (x n : Nat) (ctx : Context) :
    (n ≠ ctx.len → (Term.Var x n).show' ctx = none) ∧
    (n = ctx.len → x < ctx.len →
      (Term.Var x n).show' ctx = List.get? ctx (ctx.len - 1 - x) ∧
      ∃ name, (Term.Var x n).show' ctx = some name) := by
  constructor
  · intro h
    have h' : ctx.len ≠ n := fun hh => h hh.symm
    simp [Term.show', h']
  · intro hn hx
    have hi : ctx.len - 1 - x < ctx.length := by
      unfold Context.len at hx ⊢
      omega
    have hg := List.get?_eq_get hi
    have hmain : (Term.Var x n).show' ctx = List.get? ctx (ctx.len - 1 - x) := by
      simp [Term.show', hn, Context.index_to_name, hx]
    exact ⟨hmain, ⟨_, by rw [hmain, hg]⟩⟩

/-- C8 witness: under context `["x"]`, `Var(0, 2)` aborts (context length 1)
and `Var(0, 1)` prints the name at position `1 - 1 - 0 = 0`. -/
theorem show_var_consistency_witness :
    (Term.Var 0 2).show' ["x"] = none ∧
    (Term.Var 0 1).show' ["x"] = List.get? ["x"] 0 :=
  ⟨(show_var_consistency 0 2 ["x"]).1 (by decide),
    ((show_var_consistency 0 1 ["x"]).2 rfl (by decide)).1⟩

/-- C9: even when the context-length consistency check passes
(`n = ctx.len`), `show` on `Var(x, n)` panics (modelled as `none`) for
`x ≥ ctx.len`, because `index_to_name` computes `len - 1 - x` in unsigned
arithmetic and under- or over-indexes the vector; it returns a string exactly
when `x < ctx.len`. -/
theorem show_var_out_of_range (x : Nat) (ctx : Context) :
    (x ≥ ctx.len → Context.index_to_name ctx x = none ∧
        (Term.Var x ctx.len).show' ctx = none) ∧
    (((Term.Var x ctx.len).show' ctx).isSome = true ↔ x < ctx.len) := by
  have hshow : (Term.Var x ctx.len).show' ctx = Context.index_to_name ctx x := by
    simp [Term.show']
  constructor
  · intro hx
    have h1 : Context.index_to_name ctx x = none := by
      have hx' : ¬ x < ctx.len := by omega
      simp [Context.index_to_name, hx']
    exact ⟨h1, by rw [hshow, h1]⟩
  · rw [hshow]
    unfold Context.index_to_name
    by_cases hx : x < ctx.len
    · have hi : ctx.len - 1 - x < ctx.length := by
        unfold Context.len at hx ⊢
        omega
      simp only [hx, if_true, iff_true]
      rw [List.get?_eq_get hi]
      rfl
    · simp [hx]

/-- C9 witness: `Var(1, 1)` under the singleton context `["x"]` passes the
length check but panics in `index_to_name`. -/
theorem show_var_out_of_range_witness :
    Context.index_to_name ["x"] 1 = none ∧ (Term.Var 1 1).show' ["x"] = none :=
  (show_var_out_of_range 1 ["x"]).1 (by decide)
